import Mathlib

/-!
Verification of the engine performance deck subsystem
(`aviary/subsystems/propulsion/engine_deck.py`).

The Python code is shallowly embedded over exact rational arithmetic (`ℚ`):
every numeric quantity in the deck pipeline is a finite data value read from a
table, and the claims under study are about comparison/branching logic, so the
embedding uses `ℚ` in place of IEEE floats.  NumPy arrays become Lean lists
(flat data) or total functions `Nat → ℚ` (dense packed grids, where the Python
code zero-fills); `raise` becomes `Except`.

Python's `min`/`max`/`abs` are embedded as the executable `qmin`/`qmax`/`qabs`
(the Mathlib lattice operations on `ℚ` do not reduce in the kernel); bridging
lemmas connect them to `min`/`max`/`|·|`.
-/

/-- Executable minimum on `ℚ`, agreeing with `min`. -/
def qmin (a b : ℚ) : ℚ := if a ≤ b then a else b

/-- Executable maximum on `ℚ`, agreeing with `max`. -/
def qmax (a b : ℚ) : ℚ := if a ≤ b then b else a

/-- Executable absolute value on `ℚ`, agreeing with `|·|`. -/
def qabs (a : ℚ) : ℚ := qmax a (-a)

/-- Minimum of a list, as Python's `min` on a nonempty sequence
(`listMin [] = 0` is never exercised by the embedded code paths,
which guard for emptiness exactly where the Python code does). -/
def listMin : List ℚ → ℚ
  | [] => 0
  | x :: xs => xs.foldl qmin x

/-- Maximum of a list, as Python's `max` on a nonempty sequence. -/
def listMax : List ℚ → ℚ
  | [] => 0
  | x :: xs => xs.foldl qmax x

/-- Python's `math.isclose(a, b, abs_tol=absTol)` with the default relative
tolerance `rel_tol = 1e-9`:
`|a - b| <= max(rel_tol * max(|a|, |b|), abs_tol)`.
Both arguments are finite in every embedded call site. -/
def mathIsclose (absTol a b : ℚ) : Bool :=
  decide (qabs (a - b) ≤ qmax ((1 / 1000000000) * qmax (qabs a) (qabs b)) absTol)

/-- The `EngineModelVariables` enumeration (propulsion `utils.py`), restricted
to the members used by `engine_deck.py`. -/
inductive EngineVar where
  | MACH
  | ALTITUDE
  | THROTTLE
  | HYBRID_THROTTLE
  | THRUST
  | GROSS_THRUST
  | RAM_DRAG
  | TAILPIPE_THRUST
  | FUEL_FLOW
  | ELECTRIC_POWER
  | NOX_RATE
  | SHAFT_POWER
  | SHAFT_POWER_CORRECTED
  | TEMPERATURE
  deriving DecidableEq

open EngineVar

/-- The default required-variable set of `engine_deck.py`
(`default_required_variables`). -/
def defaultRequiredVariables : List EngineVar := [MACH, ALTITUDE, THROTTLE, THRUST]

/-- Embedding of the thrust-consistency test of `EngineDeck._check_data`
(engine_deck.py lines 467-475), reached when `THRUST`, `GROSS_THRUST` and
`RAM_DRAG` are all present:

  `net_thrust_calc = gross - ram` (elementwise),
  `res = abs(net_thrust_calc - thrust)`,
  raise `UserWarning` iff `np.any(thrust_tol > res)`.

Returns `true` iff the exception is raised. -/
def checkDataThrustRaises (thrustTol : ℚ) (gross ram thrust : List ℚ) : Bool :=
  (List.zipWith (fun n t => qabs (n - t))
    (List.zipWith (fun g r => g - r) gross ram) thrust).any
    (fun res => decide (thrustTol > res))

/-- Embedding of the required-variable test of `EngineDeck._check_data`
(engine_deck.py lines 511-523):

  if not required.issubset(engine_variables):
      missing_variables = set of vars in engine_variables that are in required
      if not missing_variables: raise UserWarning

Returns `true` iff the exception is raised. -/
def checkDataMissingRaises (required present : List EngineVar) : Bool :=
  if required.all (fun v => decide (v ∈ present)) then false
  else (present.filter (fun v => decide (v ∈ required))).isEmpty

/-- State of the `EngineDeck._count_data` loop (engine_deck.py lines
1338-1423).  `dataIndices` is the zero-filled growable 2-D array
`data_indices` as a total function, with its current allocated shape tracked
in `rows` × `cols` (`np.array([[]])` starts at shape `(1, 0)`; `extend_array`
pads with zeros, which the function default already provides).  `currMach` /
`currAlt` start at `np.inf`, modelled as `none` (`math.isclose` is false
between a finite value and infinity). -/
structure CountState where
  machCount : Nat
  altCount : Nat
  maxAltCount : Nat
  dataCount : Nat
  maxDataCount : Nat
  dataIndices : Nat → Nat → Nat
  rows : Nat
  cols : Nat
  currMach : Option ℚ
  currAlt : Option ℚ

/-- Pointwise update of a two-argument function (a single NumPy 2-D array
cell assignment). -/
def upd2 (f : Nat → Nat → Nat) (m a v : Nat) : Nat → Nat → Nat :=
  fun M A => if M = m ∧ A = a then v else f M A

/-- `math.isclose` against the running anchor value; the anchor is `none`
while it is still `np.inf`. -/
def iscloseOpt (absTol : ℚ) (a : ℚ) : Option ℚ → Bool
  | none => false
  | some b => mathIsclose absTol a b

/-- The initial state of the `_count_data` loop. -/
def countInit : CountState :=
  { machCount := 0, altCount := 1, maxAltCount := 0, dataCount := 1,
    maxDataCount := 0, dataIndices := fun _ _ => 0, rows := 1, cols := 0,
    currMach := none, currAlt := none }

/-- One iteration of the `_count_data` loop over sample `(mach_num, alt)`
(engine_deck.py lines 1369-1418), in source order:

- same Mach and same altitude: `data_indices[mc-1, ac-1] = data_count`,
  then `data_count += 1`;
- same Mach, new altitude: update `curr_alt`, `alt_count += 1`, extend the
  array, fold `data_count` into `max_data_count`, reset `data_count = 1`,
  set `data_indices[mc-1, ac-1] = 1`;
- new Mach: raise `UserWarning` (`InsufficientAltitudeError`) when
  `alt_count < 2 and mach_count > 0`, else update `curr_mach`,
  `mach_count += 1`, fold `alt_count` into `max_alt_count`, reset
  `alt_count = 1`, extend, fold `data_count` into `max_data_count`,
  reset `data_count = 1`, set `data_indices[mc-1, 0] = 1`. -/
def countStep (machTol altTol : ℚ) (s : CountState) (p : ℚ × ℚ) :
    Except Unit CountState :=
  let machNum := p.1
  let alt := p.2
  if iscloseOpt machTol machNum s.currMach then
    if iscloseOpt altTol alt s.currAlt then
      .ok { s with
        dataIndices := upd2 s.dataIndices (s.machCount - 1) (s.altCount - 1) s.dataCount,
        dataCount := s.dataCount + 1 }
    else
      let altCount := s.altCount + 1
      .ok { s with
        currAlt := some alt,
        altCount := altCount,
        rows := max s.rows s.machCount,
        cols := max s.cols altCount,
        maxDataCount := if s.dataCount > s.maxDataCount then s.dataCount else s.maxDataCount,
        dataCount := 1,
        dataIndices := upd2 s.dataIndices (s.machCount - 1) (altCount - 1) 1 }
  else
    if s.altCount < 2 ∧ s.machCount > 0 then
      .error ()
    else
      let machCount := s.machCount + 1
      .ok { s with
        currMach := some machNum,
        machCount := machCount,
        maxAltCount := if s.altCount > s.maxAltCount then s.altCount else s.maxAltCount,
        currAlt := some alt,
        altCount := 1,
        rows := max s.rows machCount,
        cols := max s.cols 1,
        maxDataCount := if s.dataCount > s.maxDataCount then s.dataCount else s.maxDataCount,
        dataCount := 1,
        dataIndices := upd2 s.dataIndices (machCount - 1) 0 1 }

/-- Embedding of `EngineDeck._count_data` over the (sorted) list of
`(MACH, ALTITUDE)` sample pairs; `model_length` is the list length.
Returns the final state, or `.error ()` when the insufficient-altitude
`UserWarning` is raised. -/
def countData (machTol altTol : ℚ) (samples : List (ℚ × ℚ)) :
    Except Unit CountState :=
  samples.foldlM (countStep machTol altTol) countInit

/-- Total of the stored `data_indices` array over its final allocated shape,
the sum of the per-bin companion counters. -/
def sumDataIndices (s : CountState) : Nat :=
  (List.range s.rows).foldl
    (fun acc M => (List.range s.cols).foldl (fun a A => a + s.dataIndices M A) 0 + acc) 0

/-- Pointwise update of a three-argument function (a NumPy 3-D array cell
assignment). -/
def upd3 (f : Nat → Nat → Nat → ℚ) (m a d : Nat) (v : ℚ) : Nat → Nat → Nat → ℚ :=
  fun M A D => if M = m ∧ A = a ∧ D = d then v else f M A D

/-- Embedding of the packing loop of `EngineDeck._pack_data` (engine_deck.py
lines 1317-1336) for one engine variable.  Python iterates `M`, `A`, `D`
(skipping bins with `data_indices[M, A] == 0`, taking `data_indices[M, A] + 1`
slots otherwise) with a single running flat index `idx` shared by all
variables, writing `packed[M, A, D] = flat[idx]` only when `idx` is in
range but incrementing `idx` unconditionally.  Returns the packed array
(zero-initialized) together with the final `idx`. -/
def packData (machMax altMax : Nat) (dI : Nat → Nat → Nat) (flat : List ℚ) :
    (Nat → Nat → Nat → ℚ) × Nat :=
  (List.range machMax).foldl
    (fun acc M =>
      (List.range altMax).foldl
        (fun acc A =>
          if dI M A = 0 then acc
          else
            (List.range (dI M A + 1)).foldl
              (fun acc D =>
                if acc.2 < flat.length then
                  (upd3 acc.1 M A D (flat.getD acc.2 0), acc.2 + 1)
                else (acc.1, acc.2 + 1))
              acc)
        acc)
    ((fun _ _ _ => 0), 0)

/-- The clamping pattern used by `EngineDeck._generate_flight_idle`:
`if idle_value < var_min: idle_value = var_min
elif idle_value > var_max: idle_value = var_max`. -/
def clampIdle (v lo hi : ℚ) : ℚ :=
  if v < lo then lo else if v > hi then hi else v

/-- The `_extrapolate` helper of `EngineDeck._generate_flight_idle`
(engine_deck.py lines 546-570): linear extrapolation from the two lowest
slots, special-cased to 0 when both are 0. -/
def extrapolateIdle (y0 y1 extrapTerm : ℚ) : ℚ :=
  if y0 = 0 ∧ y1 = 0 then 0 else y0 + (y1 - y0) * extrapTerm

/-- Idle value of one non-direct variable in one Mach/altitude bin
(engine_deck.py lines 646-714).  `binVals` is the variable's dense D-row
`packed_data[key][M, A]` (length `dataMax`, zero padding past the bin's
samples), `nIdx` is `data_indices[M, A]`.  When `nIdx == 1` the value is
`packed[key][M, A, 0] * idle_thrust_fract`; otherwise it is
`_extrapolate(packed[key][M, A])`.  Either way the result is clamped to
`[packed[key][M, A, -1] * idle_min_fract, packed[key][M, A, -1] * idle_max_fract]`,
where Python index `-1` is the last slot `dataMax - 1` of the dense row
(padding when the bin is not full). -/
def idleOtherValue (binVals : Nat → ℚ) (dataMax nIdx : Nat)
    (extrapTerm thrustFract minFract maxFract : ℚ) : ℚ :=
  let lastSlot := binVals (dataMax - 1)
  if nIdx = 1 then
    clampIdle (binVals 0 * thrustFract) (lastSlot * minFract) (lastSlot * maxFract)
  else
    clampIdle (extrapolateIdle (binVals 0) (binVals 1) extrapTerm)
      (lastSlot * minFract) (lastSlot * maxFract)

/-- Idle value of one direct-calculation variable (THRUST / SHAFT_POWER /
SHAFT_POWER_CORRECTED) in one Mach/altitude bin (engine_deck.py lines
646-690).  When `data_indices[M, A] == 1` the code uses
`packed_data[var][M, A, 0] * idle_thrust_fract`; otherwise it uses
`packed_data[var][M, A, data_indices[M, A] - 1] * idle_thrust_fract`. -/
def idleDirectValue (binVals : Nat → ℚ) (nIdx : Nat) (thrustFract : ℚ) : ℚ :=
  if nIdx = 1 then binVals 0 * thrustFract
  else binVals (nIdx - 1) * thrustFract

/-- A Mach/altitude bin receives a flight-idle point iff it holds data
(`data_indices[M, A] != 0`) and its lowest-slot thrust exceeds `thrust_tol`
(engine_deck.py lines 617-622). -/
def binGenerates (thrustVals : Nat → ℚ) (nIdx : Nat) (thrustTol : ℚ) : Bool :=
  decide (nIdx ≠ 0) && decide (thrustTol < thrustVals 0)

/-- Embedding of the `normalize` utility (engine_deck.py lines 1706-1733):
`(x - minimum) / (maximum - minimum)` elementwise, with `maximum` / `minimum`
defaulting to the extremes of the list when not overridden. -/
def normalizeList (l : List ℚ) (maximum minimum : Option ℚ) : List ℚ :=
  let mx := maximum.getD (listMax l)
  let mn := minimum.getD (listMin l)
  l.map fun x => (x - mn) / (mx - mn)

/-- Elementwise action of `_hybrid_throttle_norm`: a negative entry is sent
through `normalize(negatives, maximum=0) - 1` (with `negMin` the minimum of
the negative sub-population), a positive entry through
`normalize(positives, minimum=0)` (with `posMax` the maximum of the positive
sub-population), and zero entries are left alone. -/
def hybridFun (negMin posMax x : ℚ) : ℚ :=
  if x < 0 then (x - negMin) / (0 - negMin) - 1
  else if 0 < x then (x - 0) / (posMax - 0)
  else x

/-- Embedding of `_hybrid_throttle_norm` inside `EngineDeck._normalize_throttle`
(engine_deck.py lines 1167-1212).  The Python code splits the array by sign
with fancy indexing and writes the normalized sub-populations back in place;
that is the elementwise map `hybridFun` with the sub-population extremes
computed from the whole list. -/
def hybridNorm (l : List ℚ) : List ℚ :=
  l.map (hybridFun (listMin (l.filter (fun x => decide (x < 0))))
    (listMax (l.filter (fun x => decide (0 < x)))))

/-- Embedding of the global-scope branch of `EngineDeck._normalize_throttle`
(engine_deck.py lines 1250-1267; `global_throttle` and
`global_hybrid_throttle` are hard-wired `True` in `__init__`): the throttle
column is replaced by `normalize(data[THROTTLE])` and, when hybrid throttle
is in use, the hybrid column by `_hybrid_throttle_norm(data[HYBRID_THROTTLE])`. -/
def normalizeThrottleGlobal (useHybrid : Bool) (throttle hybrid : List ℚ) :
    List ℚ × List ℚ :=
  (normalizeList throttle none none, if useHybrid then hybridNorm hybrid else hybrid)

/-- Outcome of the scaling-resolution logic of
`EngineDeck._set_reference_thrust`. -/
inductive ScaleOutcome where
  | resolved (scaleFactor scaledThrust : Option ℚ)
  | conflictError
  deriving DecidableEq

/-- Embedding of the scaling-resolution tree of
`EngineDeck._set_reference_thrust` (engine_deck.py lines 1102-1153), after
`REFERENCE_SLS_THRUST` is known.  `scaleFactor` / `scaledThrust` are `some`
exactly when the user originally provided them.  The conflict test is
`math.isclose(scaled_thrust / ref_thrust, scale_factor)` with default
tolerances (`rel_tol = 1e-9`, `abs_tol = 0`). -/
def resolveScaling (scalePerformance : Bool) (refThrust : ℚ)
    (scaleFactor scaledThrust : Option ℚ) : ScaleOutcome :=
  match scaleFactor, scaledThrust with
  | some sf, some st =>
    if scalePerformance then
      if ¬ mathIsclose 0 (st / refThrust) sf then .conflictError
      else .resolved (some sf) (some st)
    else .resolved (some sf) (some refThrust)
  | some sf, none => .resolved (some sf) (some (refThrust * sf))
  | none, some st => .resolved none (some st)
  | none, none =>
    if scalePerformance then .resolved (some 1) (some refThrust)
    else .resolved none (some refThrust)

/-- The sea-level static sample test of `EngineDeck._set_reference_thrust`
(engine_deck.py lines 1082-1088): the altitude window is
`-alt_tol < alt <= alt_tol` (`np.where(-alt_tol < alt)` intersected with
`np.where(alt <= alt_tol)`) and the Mach window is
`-mach_tol < mach < mach_tol` (both strict). -/
def slsPred (machTol altTol mach alt : ℚ) : Bool :=
  decide (-altTol < alt) && decide (alt ≤ altTol) &&
    (decide (-machTol < mach) && decide (mach < machTol))

/-- Indices of sea-level static samples (`sls_idx`): the intersection of the
index sets of the two `np.where` conditions, kept in ascending order. -/
def slsIdx (machTol altTol : ℚ) (machs alts : List ℚ) : List Nat :=
  (List.range machs.length).filter
    (fun i => slsPred machTol altTol (machs.getD i 0) (alts.getD i 0))

/-- Embedding of the automatic `REFERENCE_SLS_THRUST` determination
(engine_deck.py lines 1078-1097), the path taken when the option is not
user-supplied: raise `UserWarning` (`NoSeaLevelStaticPointError`) when
`sls_idx` is empty, else return `max(thrust[sls_idx])`. -/
def setReferenceThrustAuto (machTol altTol : ℚ) (machs alts thrusts : List ℚ) :
    Except Unit ℚ :=
  let idx := slsIdx machTol altTol machs alts
  if idx.isEmpty then .error ()
  else .ok (listMax (idx.map (fun i => thrusts.getD i 0)))

/-- Embedding of the flight-idle-fraction check of
`EngineDeck._preprocess_inputs` (engine_deck.py lines 237-250): when
`GENERATE_FLIGHT_IDLE` is set and `idle_min > idle_max` **and the verbosity
setting is at least 1**, the two fractions are swapped; at quieter verbosity
the swap (together with its warning) is skipped. -/
def preprocessIdleFractions (verbosity : Nat) (generateIdle : Bool)
    (idleMin idleMax : ℚ) : ℚ × ℚ :=
  if generateIdle then
    if idleMin > idleMax ∧ 1 ≤ verbosity then (idleMax, idleMin)
    else (idleMin, idleMax)
  else (idleMin, idleMax)

/-! ## Bridging lemmas -/

theorem qmin_eq (a b : ℚ) : qmin a b = min a b := (min_def a b).symm

theorem qmax_eq (a b : ℚ) : qmax a b = max a b := (max_def a b).symm

theorem qabs_eq (a : ℚ) : qabs a = |a| := by
  rw [qabs, qmax_eq, abs]

/-! ## Claim C1 -/

/-- Claim C1 (code_bug evidence): `_check_data` raises the data-consistency
error on a dataset where gross thrust minus ram drag equals net thrust
exactly (residual `0 < thrust_tol = 1`), and does not raise on a dataset
whose residual is far beyond the tolerance — the opposite of the claimed
(and documented) behavior, because the comparison `np.any(thrust_tol > res)`
is inverted. -/
theorem checkData_thrust_consistency_code_bug :
    checkDataThrustRaises 1 [150] [50] [100] = true
    ∧ qabs ((150 - 50 : ℚ) - 100) < 1
    ∧ checkDataThrustRaises 1 [150] [50] [999] = false
    ∧ 1 ≤ qabs ((150 - 50 : ℚ) - 999) := by
  refine ⟨?_, ?_, ?_, ?_⟩ <;>
    norm_num [checkDataThrustRaises, qabs, qmax]

/-! ## Claim C2 -/

/-- Claim C2 (code_bug evidence): with the default required set
{MACH, ALTITUDE, THROTTLE, THRUST} and THRUST absent from the registry,
`_check_data` does **not** raise the missing-required-variable error
(`missing_variables` is computed as the *present* required variables and the
raise condition is inverted); the error fires only when every required
variable is absent, and then reports the empty set. -/
theorem checkData_missing_required_code_bug :
    checkDataMissingRaises defaultRequiredVariables [MACH, ALTITUDE, THROTTLE] = false
    ∧ THRUST ∉ [MACH, ALTITUDE, THROTTLE]
    ∧ checkDataMissingRaises defaultRequiredVariables [FUEL_FLOW] = true := by
  refine ⟨?_, ?_, ?_⟩ <;> decide

/-! ## Claim C8 -/

/-- Claim C8: the reference-thrust scaling resolver follows the documented
resolution table.  With both scale factor and scaled thrust provided and
`SCALE_PERFORMANCE` true it fails exactly when `scaled/reference` is not
`math.isclose` to the scale factor; with both provided and the flag false the
scaled thrust is overwritten with the reference; with only the scale factor
provided the scaled thrust becomes `reference * scale_factor`; with neither
provided the scale factor defaults to 1 (flag true) and the scaled thrust to
the reference in both flag states. -/
theorem resolveScaling_resolution_table :
    ∀ refThrust sf st : ℚ,
      (resolveScaling true refThrust (some sf) (some st) = ScaleOutcome.conflictError
        ↔ ¬ mathIsclose 0 (st / refThrust) sf = true)
      ∧ resolveScaling false refThrust (some sf) (some st)
          = ScaleOutcome.resolved (some sf) (some refThrust)
      ∧ (∀ perf : Bool, resolveScaling perf refThrust (some sf) none
          = ScaleOutcome.resolved (some sf) (some (refThrust * sf)))
      ∧ resolveScaling true refThrust none none
          = ScaleOutcome.resolved (some 1) (some refThrust)
      ∧ resolveScaling false refThrust none none
          = ScaleOutcome.resolved none (some refThrust) := by
  intro refThrust sf st
  refine ⟨?_, ?_, ?_, ?_, ?_⟩
  · by_cases h : mathIsclose 0 (st / refThrust) sf = true <;>
      simp [resolveScaling, h]
  · simp [resolveScaling]
  · intro perf; cases perf <;> simp [resolveScaling]
  · simp [resolveScaling]
  · simp [resolveScaling]

/-! ## Claim C10 -/

/-- Claim C10 (code_bug evidence): with `GENERATE_FLIGHT_IDLE` on and
inverted idle fractions (min 1/2 > max 1/10), `_preprocess_inputs` leaves the
fractions inverted at verbosity 0 but swaps them at verbosity 1, so two
constructions differing only in verbosity carry different numeric
flight-idle fractions into the rest of the pipeline. -/
theorem verbosity_changes_fractions_code_bug :
    preprocessIdleFractions 0 true (1/2) (1/10) = (1/2, 1/10)
    ∧ preprocessIdleFractions 1 true (1/2) (1/10) = (1/10, 1/2)
    ∧ ((1/2 : ℚ), (1/10 : ℚ)) ≠ ((1/10 : ℚ), (1/2 : ℚ)) := by
  refine ⟨?_, ?_, ?_⟩ <;> norm_num [preprocessIdleFractions]

/-! ## Claim C5 -/

/-- Claim C5 (counterexample): a bin with two real samples `[10, 20]` of a
non-direct variable, padded to a dense row of length 3, in a deck with
`idle_min_fraction = 1/25 <= idle_max_fraction = 1/2` and
`idle_thrust_fraction = 1/20`, and with positive thrust so that the bin does
generate an idle point.  The code clamps against the last *slot* (the zero
padding), producing 0, which lies strictly below the claimed lower bound
`last_real_sample * idle_min_fraction = 20 * (1/25)`. -/
theorem idle_clamp_counterexample :
    binGenerates (fun i => [100, 200, 0].getD i 0) 1 1 = true
    ∧ (1/25 : ℚ) ≤ 1/2
    ∧ idleOtherValue (fun i => [10, 20, 0].getD i 0) 3 1 0 (1/20) (1/25) (1/2) = 0
    ∧ (0 : ℚ) < 20 * (1/25) := by
  refine ⟨?_, by norm_num, ?_, by norm_num⟩
  · norm_num [binGenerates]
  · norm_num [idleOtherValue, clampIdle]

/-! ## Claim C6 -/

/-- Claim C6 (counterexample): a bin with three samples `[10, 20, 30]` of a
direct-calculation variable (companion entry `data_indices = 2`) and
`idle_thrust_fraction = 1/10`.  The code computes the idle value from slot
`data_indices - 1 = 1` (the sample 20), yielding 2, while the claim's
lowest-throttle sample would give `10 * (1/10) = 1`. -/
theorem idle_direct_counterexample :
    binGenerates (fun i => [10, 20, 30].getD i 0) 2 1 = true
    ∧ idleDirectValue (fun i => [10, 20, 30].getD i 0) 2 (1/10) = 2
    ∧ (10 : ℚ) * (1/10) = 1
    ∧ (2 : ℚ) ≠ 1 := by
  refine ⟨?_, ?_, by norm_num, by norm_num⟩
  · norm_num [binGenerates]
  · norm_num [idleDirectValue]

/-! ## Claim C9 -/

/-- Claim C9 (counterexample): a single sample with `MACH = mach_tol = 1/100`
and `ALTITUDE = 0` satisfies `|MACH| <= mach_tol` and `|ALTITUDE| <= alt_tol`,
so under the claim it is a sea-level static point; the code's strict upper
Mach bound (`mach < mach_tol`) excludes it, and reference-thrust
determination raises the no-sea-level-static-point error. -/
theorem sls_boundary_counterexample :
    (setReferenceThrustAuto (1/100) 10 [1/100] [0] [500]).toOption = none
    ∧ qabs (1/100) ≤ (1/100 : ℚ)
    ∧ qabs 0 ≤ (10 : ℚ) := by
  refine ⟨?_, ?_, ?_⟩
  · have h : slsIdx (1/100) 10 [1/100] [0] = [] := by
      norm_num [slsIdx, slsPred, List.range_succ, List.filter]
    norm_num [setReferenceThrustAuto, h, Except.toOption]
  · norm_num [qabs, qmax]
  · norm_num [qabs, qmax]

/-! ## Clamping and single-bin counting lemmas -/

theorem clampIdle_mem {v lo hi : ℚ} (h : lo ≤ hi) :
    lo ≤ clampIdle v lo hi ∧ clampIdle v lo hi ≤ hi := by
  unfold clampIdle
  split_ifs with h1 h2
  · exact ⟨le_refl lo, h⟩
  · exact ⟨h, le_refl hi⟩
  · exact ⟨not_lt.mp h1, not_lt.mp h2⟩

theorem countStep_same_bin (s : CountState) (k : Nat)
    (h1 : s.machCount = 1) (h2 : s.altCount = 1) (h3 : s.currMach = some 0)
    (h4 : s.currAlt = some 0) (h5 : s.dataCount = k + 1)
    (_h6 : s.dataIndices 0 0 = max 1 k) :
    ∃ s', countStep (1/100) 10 s ((0 : ℚ), (0 : ℚ)) = .ok s'
      ∧ s'.machCount = 1 ∧ s'.altCount = 1 ∧ s'.currMach = some 0
      ∧ s'.currAlt = some 0 ∧ s'.dataCount = k + 2
      ∧ s'.dataIndices 0 0 = max 1 (k + 1) := by
  have hm : iscloseOpt (1/100) 0 s.currMach = true := by
    rw [h3]; norm_num [iscloseOpt, mathIsclose, qabs, qmax]
  have ha : iscloseOpt 10 0 s.currAlt = true := by
    rw [h4]; norm_num [iscloseOpt, mathIsclose, qabs, qmax]
  refine ⟨{ s with
      dataIndices := upd2 s.dataIndices (s.machCount - 1) (s.altCount - 1) s.dataCount,
      dataCount := s.dataCount + 1 }, ?_, by simpa using h1, by simpa using h2,
    by simpa using h3, by simpa using h4, by simp only []; omega, ?_⟩
  · simp only [countStep, hm, ha, if_true, ite_true, eq_self_iff_true]
  · simp only [upd2, h1, h2]
    simp [h5]

theorem countData_replicate_aux (m : Nat) :
    ∀ (k : Nat) (s : CountState),
      s.machCount = 1 → s.altCount = 1 → s.currMach = some 0 → s.currAlt = some 0 →
      s.dataCount = k + 1 → s.dataIndices 0 0 = max 1 k →
      ∃ s', (List.replicate m ((0:ℚ), (0:ℚ))).foldlM (countStep (1/100) 10) s = .ok s'
        ∧ s'.machCount = 1 ∧ s'.altCount = 1 ∧ s'.currMach = some 0 ∧ s'.currAlt = some 0
        ∧ s'.dataCount = k + m + 1 ∧ s'.dataIndices 0 0 = max 1 (k + m) := by
  induction m with
  | zero =>
    intro k s h1 h2 h3 h4 h5 h6
    exact ⟨s, by simp [List.foldlM, pure, Except.pure], h1, h2, h3, h4, by omega,
      by simpa using h6⟩
  | succ n ih =>
    intro k s h1 h2 h3 h4 h5 h6
    obtain ⟨s1, hs1, g1, g2, g3, g4, g5, g6⟩ := countStep_same_bin s k h1 h2 h3 h4 h5 h6
    obtain ⟨s', hfold, f1, f2, f3, f4, f5, f6⟩ := ih (k + 1) s1 g1 g2 g3 g4 g5 g6
    refine ⟨s', ?_, f1, f2, f3, f4, by omega, by rw [f6]; congr 1; omega⟩
    rw [List.replicate_succ]
    simp only [List.foldlM, hs1, bind, Except.bind]
    exact hfold

theorem countData_replicate (n : Nat) (hn : 1 ≤ n) :
    ∃ s', countData (1/100) 10 (List.replicate n ((0:ℚ), (0:ℚ))) = .ok s'
      ∧ s'.dataIndices 0 0 = max 1 (n - 1) := by
  obtain ⟨m, rfl⟩ : ∃ m, n = m + 1 := ⟨n - 1, by omega⟩
  have hstep : ∃ s1, countStep (1/100) 10 countInit ((0:ℚ), (0:ℚ)) = .ok s1
      ∧ s1.machCount = 1 ∧ s1.altCount = 1 ∧ s1.currMach = some 0
      ∧ s1.currAlt = some 0 ∧ s1.dataCount = 1 ∧ s1.dataIndices 0 0 = max 1 0 := by
    refine ⟨CountState.mk 1 1 1 1 1 (upd2 (fun _ _ => 0) 0 0 1) 1 1 (some 0) (some 0),
      ?_, rfl, rfl, rfl, rfl, rfl, by norm_num [upd2]⟩
    norm_num [countStep, countInit, iscloseOpt, upd2]
  obtain ⟨s1, hs1, g1, g2, g3, g4, g5, g6⟩ := hstep
  obtain ⟨s', hfold, _, _, _, _, _, f6⟩ :=
    countData_replicate_aux m 0 s1 g1 g2 g3 g4 g5 g6
  refine ⟨s', ?_, by simpa using f6⟩
  rw [List.replicate_succ, countData]
  simp only [List.foldlM, hs1, bind, Except.bind]
  exact hfold

/-! ## Claim C5 (amended) -/

/-- Claim C5 as amended: the clamp interval of every non-direct synthesized
idle value is based on the last *slot* of the variable's dense bin row
(`packed_data[key][M, A, -1]`, zero padding whenever the bin is not full),
not on the last real sample.  Whenever that slot value is nonnegative and
`idle_min_fraction <= idle_max_fraction`, the synthesized value lies within
`[slot * idle_min_fraction, slot * idle_max_fraction]` inclusive, in both the
single-point branch and the extrapolation branch. -/
theorem idle_clamp_amended (binVals : Nat → ℚ) (dataMax nIdx : Nat)
    (extrapTerm thrustFract minFract maxFract : ℚ)
    (hslot : 0 ≤ binVals (dataMax - 1)) (hf : minFract ≤ maxFract) :
    binVals (dataMax - 1) * minFract
        ≤ idleOtherValue binVals dataMax nIdx extrapTerm thrustFract minFract maxFract
    ∧ idleOtherValue binVals dataMax nIdx extrapTerm thrustFract minFract maxFract
        ≤ binVals (dataMax - 1) * maxFract := by
  have hbounds : binVals (dataMax - 1) * minFract ≤ binVals (dataMax - 1) * maxFract :=
    mul_le_mul_of_nonneg_left hf hslot
  unfold idleOtherValue
  split_ifs <;> exact clampIdle_mem hbounds

/-- Witness for `idle_clamp_amended` at a concrete bin. -/
theorem idle_clamp_amended_witness :
    (fun i => ([10, 20, 0] : List ℚ).getD i 0) (3 - 1) * (1/25)
        ≤ idleOtherValue (fun i => ([10, 20, 0] : List ℚ).getD i 0) 3 1 0 (1/20) (1/25) (1/2)
    ∧ idleOtherValue (fun i => ([10, 20, 0] : List ℚ).getD i 0) 3 1 0 (1/20) (1/25) (1/2)
        ≤ (fun i => ([10, 20, 0] : List ℚ).getD i 0) (3 - 1) * (1/2) :=
  idle_clamp_amended (fun i => ([10, 20, 0] : List ℚ).getD i 0) 3 1 0 (1/20) (1/25) (1/2)
    (by norm_num) (by norm_num)

/-! ## Claim C6 (amended) -/

/-- Claim C6 as amended: for a Mach/altitude bin holding `n` sorted samples,
the companion entry `data_indices` produced by `_count_data` equals
`max 1 (n - 1)` (not `n`), and the direct-calculation idle value is the
lowest-throttle sample times `idle_thrust_fraction` only for bins of one or
two samples; for `n >= 3` samples it is the sample at slot `n - 2` (the
second-highest throttle) times `idle_thrust_fraction`. -/
theorem idle_direct_amended (n : Nat) (hn : 1 ≤ n)
    (vals : List ℚ) (hv : vals.length = n) (fract : ℚ) :
    ((countData (1/100) 10 (List.replicate n ((0:ℚ), (0:ℚ)))).toOption.map
        (fun s => s.dataIndices 0 0) = some (max 1 (n - 1)))
    ∧ idleDirectValue (fun i => vals.getD i 0) (max 1 (n - 1)) fract
        = (if n ≤ 2 then vals.getD 0 0 else vals.getD (n - 2) 0) * fract := by
  constructor
  · obtain ⟨s', hrun, hidx⟩ := countData_replicate n hn
    rw [hrun]
    simpa [Except.toOption] using hidx
  · match n, hn with
    | 1, _ => simp [idleDirectValue]
    | 2, _ => simp [idleDirectValue]
    | (k + 3), _ =>
      have hmax : max 1 (k + 3 - 1) = k + 2 := by omega
      have hne : ¬ (k + 2 = 1) := by omega
      have hle : ¬ (k + 3 ≤ 2) := by omega
      have h4 : k + 2 - 1 = k + 1 := by omega
      have h5 : k + 3 - 2 = k + 1 := by omega
      simp [hmax, idleDirectValue, hne, hle, h4, h5]

/-- Witness for `idle_direct_amended` at a three-sample bin. -/
theorem idle_direct_amended_witness :
    ((countData (1/100) 10 (List.replicate 3 ((0:ℚ), (0:ℚ)))).toOption.map
        (fun s => s.dataIndices 0 0) = some (max 1 (3 - 1)))
    ∧ idleDirectValue (fun i => ([10, 20, 30] : List ℚ).getD i 0) (max 1 (3 - 1)) (1/10)
        = (if 3 ≤ 2 then ([10, 20, 30] : List ℚ).getD 0 0
           else ([10, 20, 30] : List ℚ).getD (3 - 2) 0) * (1/10) :=
  idle_direct_amended 3 (by norm_num) [10, 20, 30] (by norm_num) (1/10)

/-! ## Claim C3 -/

/-- Claim C3 (code_bug evidence): for the sorted 4-sample table with one Mach
group and two altitude bins of two samples each
(`MACH = [0,0,0,0]`, `ALTITUDE = [0,0,100,100]`), the companion array
`data_indices` holds 1 for each two-sample bin (the stored value is the
bin's sample count minus one, contradicting the code's own comment that it
stores how many data points there are), so it sums to 2, not
`model_length = 4`; moreover `alt_max_count` stays 1 (the final Mach group's
altitude tally is never folded into the maximum), so the packing loop
consumes only 2 of the 4 flat samples. -/
theorem countData_pack_conservation_code_bug :
    ([((0:ℚ), (0:ℚ)), (0, 0), (0, 100), (0, 100)] : List (ℚ × ℚ)).length = 4
    ∧ (countData (1/100) 10 [((0:ℚ), (0:ℚ)), (0, 0), (0, 100), (0, 100)]).toOption.map
        (fun s => (sumDataIndices s, s.dataIndices 0 0, s.dataIndices 0 1,
          s.machCount, s.maxAltCount, s.maxDataCount)) = some (2, 1, 1, 1, 1, 2)
    ∧ (countData (1/100) 10 [((0:ℚ), (0:ℚ)), (0, 0), (0, 100), (0, 100)]).toOption.map
        (fun s => (packData s.machCount s.maxAltCount s.dataIndices
          [0, 0, 100, 100]).2) = some 2 := by
  refine ⟨rfl, ?_, ?_⟩ <;>
    norm_num [countData, countStep, countInit, iscloseOpt, mathIsclose, qabs, qmax,
      upd2, List.foldlM, bind, Except.bind, pure, Except.pure, Except.toOption,
      sumDataIndices, packData, upd3, List.range_succ]

/-! ## Claim C4 -/

/-- Claim C4 (code_bug evidence): on the sorted table whose final Mach group
(Mach 4/5) holds exactly one altitude bin, `_count_data` completes without
the insufficient-altitude error (final state: 2 Mach groups, last group
`alt_count = 1`), because the `alt_count < 2` check runs only when the next
Mach group starts; the same check does fire when a non-final Mach group has
a single altitude, as the second table shows. -/
theorem countData_last_mach_group_code_bug :
    (countData (1/100) 10 [((0:ℚ), (0:ℚ)), (0, 1000), (4/5, 35000), (4/5, 35000)]).toOption.map
        (fun s => (s.machCount, s.altCount)) = some (2, 1)
    ∧ (countData (1/100) 10 [((0:ℚ), (0:ℚ)), (4/5, 0), (4/5, 1000)]).toOption.isNone
        = true := by
  refine ⟨?_, ?_⟩ <;>
    norm_num [countData, countStep, countInit, iscloseOpt, mathIsclose, qabs, qmax,
      upd2, List.foldlM, bind, Except.bind, pure, Except.pure, Except.toOption]

/-! ## List extremum lemmas -/

theorem foldl_qmin_eq (l : List ℚ) (a : ℚ) : l.foldl qmin a = l.foldl min a := by
  induction l generalizing a with
  | nil => rfl
  | cons x xs ih => simp only [List.foldl_cons, qmin_eq, ih]

theorem foldl_qmax_eq (l : List ℚ) (a : ℚ) : l.foldl qmax a = l.foldl max a := by
  induction l generalizing a with
  | nil => rfl
  | cons x xs ih => simp only [List.foldl_cons, qmax_eq, ih]

theorem foldl_min_le_self (l : List ℚ) (a : ℚ) : l.foldl min a ≤ a := by
  induction l generalizing a with
  | nil => exact le_refl a
  | cons x xs ih => exact le_trans (ih (min a x)) (min_le_left a x)

theorem foldl_min_le_mem {l : List ℚ} {b : ℚ} (h : b ∈ l) (a : ℚ) :
    l.foldl min a ≤ b := by
  induction l generalizing a with
  | nil => exact absurd h (List.not_mem_nil b)
  | cons x xs ih =>
    rcases List.mem_cons.mp h with rfl | hxs
    · exact le_trans (foldl_min_le_self xs (min a b)) (min_le_right a b)
    · exact ih hxs (min a x)

theorem foldl_min_mem (l : List ℚ) (a : ℚ) : l.foldl min a = a ∨ l.foldl min a ∈ l := by
  induction l generalizing a with
  | nil => exact Or.inl rfl
  | cons x xs ih =>
    rcases ih (min a x) with h | h
    · rcases min_cases a x with ⟨he, _⟩ | ⟨he, _⟩
      · exact Or.inl (by rw [List.foldl_cons, h, he])
      · exact Or.inr (by rw [List.foldl_cons, h, he]; exact List.mem_cons_self x xs)
    · exact Or.inr (List.mem_cons_of_mem x h)

theorem self_le_foldl_max (l : List ℚ) (a : ℚ) : a ≤ l.foldl max a := by
  induction l generalizing a with
  | nil => exact le_refl a
  | cons x xs ih => exact le_trans (le_max_left a x) (ih (max a x))

theorem mem_le_foldl_max {l : List ℚ} {b : ℚ} (h : b ∈ l) (a : ℚ) :
    b ≤ l.foldl max a := by
  induction l generalizing a with
  | nil => exact absurd h (List.not_mem_nil b)
  | cons x xs ih =>
    rcases List.mem_cons.mp h with rfl | hxs
    · exact le_trans (le_max_right a b) (self_le_foldl_max xs (max a b))
    · exact ih hxs (max a x)

theorem foldl_max_mem (l : List ℚ) (a : ℚ) : l.foldl max a = a ∨ l.foldl max a ∈ l := by
  induction l generalizing a with
  | nil => exact Or.inl rfl
  | cons x xs ih =>
    rcases ih (max a x) with h | h
    · rcases max_cases a x with ⟨he, _⟩ | ⟨he, _⟩
      · exact Or.inl (by rw [List.foldl_cons, h, he])
      · exact Or.inr (by rw [List.foldl_cons, h, he]; exact List.mem_cons_self x xs)
    · exact Or.inr (List.mem_cons_of_mem x h)

theorem listMin_le {l : List ℚ} {a : ℚ} (h : a ∈ l) : listMin l ≤ a := by
  match l, h with
  | x :: xs, h =>
    rw [listMin, foldl_qmin_eq]
    rcases List.mem_cons.mp h with rfl | hxs
    · exact foldl_min_le_self xs a
    · exact foldl_min_le_mem hxs x

theorem listMin_mem {l : List ℚ} (h : l ≠ []) : listMin l ∈ l := by
  match l, h with
  | x :: xs, _ =>
    rw [listMin, foldl_qmin_eq]
    rcases foldl_min_mem xs x with h | h
    · rw [h]; exact List.mem_cons_self x xs
    · exact List.mem_cons_of_mem x h

theorem le_listMax {l : List ℚ} {a : ℚ} (h : a ∈ l) : a ≤ listMax l := by
  match l, h with
  | x :: xs, h =>
    rw [listMax, foldl_qmax_eq]
    rcases List.mem_cons.mp h with rfl | hxs
    · exact self_le_foldl_max xs a
    · exact mem_le_foldl_max hxs x

theorem listMax_mem {l : List ℚ} (h : l ≠ []) : listMax l ∈ l := by
  match l, h with
  | x :: xs, _ =>
    rw [listMax, foldl_qmax_eq]
    rcases foldl_max_mem xs x with h | h
    · rw [h]; exact List.mem_cons_self x xs
    · exact List.mem_cons_of_mem x h

/-! ## Claim C9 (amended) -/

/-- Claim C9 as amended: when `REFERENCE_SLS_THRUST` is not user-supplied,
the sea-level static window is `-alt_tol < ALTITUDE <= alt_tol` together with
`-mach_tol < MACH < mach_tol` (the lower altitude bound and both Mach bounds
strict, so boundary samples at `MACH = mach_tol` or `ALTITUDE = -alt_tol` are
excluded); the no-sea-level-static-point error is raised exactly when no
sample lies in that window, and otherwise the reference thrust is the
maximum thrust over the samples in the window. -/
theorem sls_reference_amended (machTol altTol : ℚ) (machs alts thrusts : List ℚ) :
    (setReferenceThrustAuto machTol altTol machs alts thrusts = .error () ↔
      ∀ i, i < machs.length →
        slsPred machTol altTol (machs.getD i 0) (alts.getD i 0) = false)
    ∧ ∀ i, i < machs.length →
        slsPred machTol altTol (machs.getD i 0) (alts.getD i 0) = true →
        ∃ r, setReferenceThrustAuto machTol altTol machs alts thrusts = .ok r
          ∧ thrusts.getD i 0 ≤ r
          ∧ ∃ j, j < machs.length
              ∧ slsPred machTol altTol (machs.getD j 0) (alts.getD j 0) = true
              ∧ r = thrusts.getD j 0 := by
  constructor
  · unfold setReferenceThrustAuto
    by_cases hid : (slsIdx machTol altTol machs alts).isEmpty
    · simp only [hid, if_true]
      have hnil : slsIdx machTol altTol machs alts = [] := by
        cases hc : slsIdx machTol altTol machs alts with
        | nil => rfl
        | cons j js => rw [hc] at hid; exact absurd hid (by simp [List.isEmpty])
      constructor
      · intro _ i hi
        by_contra hpred
        have hmem : i ∈ slsIdx machTol altTol machs alts := by
          rw [slsIdx, List.mem_filter]
          exact ⟨List.mem_range.mpr hi, by simpa using hpred⟩
        rw [hnil] at hmem
        exact absurd hmem (List.not_mem_nil i)
      · intro _; trivial
    · simp only [hid, if_false]
      constructor
      · intro hcontra; exact absurd hcontra (by simp)
      · intro hall
        exfalso
        obtain ⟨j, js, hc⟩ : ∃ j js, slsIdx machTol altTol machs alts = j :: js := by
          cases hc : slsIdx machTol altTol machs alts with
          | nil => rw [hc] at hid; exact absurd rfl hid
          | cons j js => exact ⟨j, js, rfl⟩
        have hj : j ∈ slsIdx machTol altTol machs alts := by
          rw [hc]; exact List.mem_cons_self j js
        rw [slsIdx, List.mem_filter] at hj
        have := hall j (List.mem_range.mp hj.1)
        rw [this] at hj
        exact absurd hj.2 (by simp)
  · intro i hi hp
    have hmem : i ∈ slsIdx machTol altTol machs alts := by
      rw [slsIdx, List.mem_filter]
      exact ⟨List.mem_range.mpr hi, hp⟩
    have hne : slsIdx machTol altTol machs alts ≠ [] := by
      intro hc; rw [hc] at hmem; exact absurd hmem (List.not_mem_nil i)
    have hid : (slsIdx machTol altTol machs alts).isEmpty = false := by
      cases hc : slsIdx machTol altTol machs alts with
      | nil => exact absurd hc hne
      | cons j js => simp [List.isEmpty]
    refine ⟨listMax ((slsIdx machTol altTol machs alts).map (fun i => thrusts.getD i 0)),
      ?_, ?_, ?_⟩
    · unfold setReferenceThrustAuto
      simp only [hid, Bool.false_eq_true, if_false]
    · exact le_listMax (List.mem_map_of_mem _ hmem)
    · have hmm := listMax_mem (l := (slsIdx machTol altTol machs alts).map
        (fun i => thrusts.getD i 0)) (by simpa using hne)
      obtain ⟨j, hj, hje⟩ := List.mem_map.mp hmm
      rw [slsIdx, List.mem_filter] at hj
      exact ⟨j, List.mem_range.mp hj.1, hj.2, hje.symm⟩

/-- Witness for `sls_reference_amended`: a genuine sea-level static sample
(Mach 0, altitude 0, thrust 500) is found and bounds the returned reference
thrust. -/
theorem sls_reference_amended_witness :
    ∃ r, setReferenceThrustAuto (1/100) 10 [0] [0] [500] = .ok r
      ∧ ([500] : List ℚ).getD 0 0 ≤ r
      ∧ ∃ j, j < ([0] : List ℚ).length
          ∧ slsPred (1/100) 10 (([0] : List ℚ).getD j 0) (([0] : List ℚ).getD j 0) = true
          ∧ r = ([500] : List ℚ).getD j 0 :=
  (sls_reference_amended (1/100) 10 [0] [0] [500]).2 0 (by norm_num)
    (by norm_num [slsPred])

/-! ## Normalization lemmas -/

theorem foldl_min_map {f : ℚ → ℚ} (hf : Monotone f) (xs : List ℚ) (a : ℚ) :
    (xs.map f).foldl min (f a) = f (xs.foldl min a) := by
  induction xs generalizing a with
  | nil => rfl
  | cons y ys ih =>
    rw [List.map_cons, List.foldl_cons, List.foldl_cons, ← hf.map_min, ih]

theorem foldl_max_map {f : ℚ → ℚ} (hf : Monotone f) (xs : List ℚ) (a : ℚ) :
    (xs.map f).foldl max (f a) = f (xs.foldl max a) := by
  induction xs generalizing a with
  | nil => rfl
  | cons y ys ih =>
    rw [List.map_cons, List.foldl_cons, List.foldl_cons, ← hf.map_max, ih]

theorem listMin_map_mono {f : ℚ → ℚ} (hf : Monotone f) {l : List ℚ} (h : l ≠ []) :
    listMin (l.map f) = f (listMin l) := by
  match l, h with
  | x :: xs, _ =>
    rw [List.map_cons, listMin, listMin, foldl_qmin_eq, foldl_qmin_eq]
    exact foldl_min_map hf xs x

theorem listMax_map_mono {f : ℚ → ℚ} (hf : Monotone f) {l : List ℚ} (h : l ≠ []) :
    listMax (l.map f) = f (listMax l) := by
  match l, h with
  | x :: xs, _ =>
    rw [List.map_cons, listMax, listMax, foldl_qmax_eq, foldl_qmax_eq]
    exact foldl_max_map hf xs x

theorem map_eq_self_of_eq {f : ℚ → ℚ} {l : List ℚ} (h : ∀ a ∈ l, f a = a) :
    l.map f = l := by
  induction l with
  | nil => rfl
  | cons x xs ih =>
    rw [List.map_cons, h x (List.mem_cons_self x xs),
      ih (fun y hy => h y (List.mem_cons_of_mem x hy))]

theorem map_congr_mem {f g : ℚ → ℚ} {l : List ℚ} (h : ∀ a ∈ l, f a = g a) :
    l.map f = l.map g := by
  induction l with
  | nil => rfl
  | cons x xs ih =>
    rw [List.map_cons, List.map_cons, h x (List.mem_cons_self x xs),
      ih (fun y hy => h y (List.mem_cons_of_mem x hy))]

theorem filter_map_sign {f : ℚ → ℚ} {q : ℚ → Bool} {l : List ℚ}
    (h : ∀ x ∈ l, q (f x) = q x) :
    (l.map f).filter q = (l.filter q).map f := by
  induction l with
  | nil => rfl
  | cons x xs ih =>
    rw [List.map_cons, List.filter_cons, List.filter_cons,
      h x (List.mem_cons_self x xs)]
    by_cases hq : q x = true
    · rw [hq]
      simp only [if_true]
      rw [List.map_cons, ih (fun y hy => h y (List.mem_cons_of_mem x hy))]
    · rw [Bool.not_eq_true] at hq
      rw [hq]
      simp only [Bool.false_eq_true, if_false]
      exact ih (fun y hy => h y (List.mem_cons_of_mem x hy))

theorem normalizeList_minmax (l : List ℚ) (h : listMin l < listMax l) :
    listMin (normalizeList l none none) = 0 ∧ listMax (normalizeList l none none) = 1 := by
  have hd : 0 < listMax l - listMin l := sub_pos.mpr h
  have hne : l ≠ [] := by
    rintro rfl
    rw [listMin, listMax] at h
    exact absurd h (lt_irrefl 0)
  have hf : Monotone (fun x => (x - listMin l) / (listMax l - listMin l)) := by
    intro x y hxy
    exact (div_le_div_iff_of_pos_right hd).mpr (sub_le_sub_right hxy _)
  have hshow : normalizeList l none none
      = l.map (fun x => (x - listMin l) / (listMax l - listMin l)) := rfl
  constructor
  · rw [hshow, listMin_map_mono hf hne, sub_self, zero_div]
  · rw [hshow, listMax_map_mono hf hne, div_self hd.ne']

theorem normalizeList_idem (l : List ℚ) (h : listMin l < listMax l) :
    normalizeList (normalizeList l none none) none none = normalizeList l none none := by
  obtain ⟨h0, h1⟩ := normalizeList_minmax l h
  have hshow : normalizeList (normalizeList l none none) none none
      = (normalizeList l none none).map
          (fun x => (x - listMin (normalizeList l none none))
            / (listMax (normalizeList l none none) - listMin (normalizeList l none none))) :=
    rfl
  rw [hshow, h0, h1]
  exact map_eq_self_of_eq (fun a _ => by norm_num)

/-! ## Hybrid throttle lemmas -/

theorem negMin_le {l : List ℚ} {x : ℚ} (hx : x ∈ l) (hneg : x < 0) :
    listMin (l.filter (fun y => decide (y < 0))) ≤ x :=
  listMin_le (by rw [List.mem_filter]; exact ⟨hx, by simpa using hneg⟩)

theorem neg_filter_ne_nil {l : List ℚ} {x : ℚ} (hx : x ∈ l) (hneg : x < 0) :
    l.filter (fun y => decide (y < 0)) ≠ [] := by
  intro hc
  have hm : x ∈ l.filter (fun y => decide (y < 0)) := by
    rw [List.mem_filter]; exact ⟨hx, by simpa using hneg⟩
  rw [hc] at hm
  exact absurd hm (List.not_mem_nil x)

theorem negMin_neg {l : List ℚ} {x : ℚ} (hx : x ∈ l) (hneg : x < 0) :
    listMin (l.filter (fun y => decide (y < 0))) < 0 := by
  have hmem := listMin_mem (neg_filter_ne_nil hx hneg)
  rw [List.mem_filter] at hmem
  simpa using hmem.2

theorem le_posMax {l : List ℚ} {x : ℚ} (hx : x ∈ l) (hpos : 0 < x) :
    x ≤ listMax (l.filter (fun y => decide (0 < y))) :=
  le_listMax (by rw [List.mem_filter]; exact ⟨hx, by simpa using hpos⟩)

theorem pos_filter_ne_nil {l : List ℚ} {x : ℚ} (hx : x ∈ l) (hpos : 0 < x) :
    l.filter (fun y => decide (0 < y)) ≠ [] := by
  intro hc
  have hm : x ∈ l.filter (fun y => decide (0 < y)) := by
    rw [List.mem_filter]; exact ⟨hx, by simpa using hpos⟩
  rw [hc] at hm
  exact absurd hm (List.not_mem_nil x)

theorem posMax_pos {l : List ℚ} {x : ℚ} (hx : x ∈ l) (hpos : 0 < x) :
    0 < listMax (l.filter (fun y => decide (0 < y))) := by
  have hmem := listMax_mem (pos_filter_ne_nil hx hpos)
  rw [List.mem_filter] at hmem
  simpa using hmem.2

theorem hybridFun_neg_mem (p : ℚ) {m x : ℚ} (hm : m ≤ x) (hm0 : m < 0) (hx : x < 0) :
    -1 ≤ hybridFun m p x ∧ hybridFun m p x < 0 := by
  rw [hybridFun, if_pos hx]
  have hd : (0 : ℚ) < 0 - m := by linarith
  constructor
  · have hq : (0:ℚ) ≤ (x - m) / (0 - m) := div_nonneg (by linarith) hd.le
    linarith
  · have hq : (x - m) / (0 - m) < 1 := (div_lt_one hd).mpr (by linarith)
    linarith

theorem hybridFun_pos_mem (m : ℚ) {p x : ℚ} (hp : x ≤ p) (hp0 : 0 < p) (hx : 0 < x) :
    0 < hybridFun m p x ∧ hybridFun m p x ≤ 1 := by
  rw [hybridFun, if_neg (by linarith), if_pos hx]
  constructor
  · exact div_pos (by linarith) (by linarith)
  · rw [sub_zero, sub_zero]
    exact (div_le_one hp0).mpr hp

theorem hybridFun_zero (m p : ℚ) : hybridFun m p 0 = 0 := by
  rw [hybridFun, if_neg (lt_irrefl 0), if_neg (lt_irrefl 0)]

theorem hybridNorm_eq_map (l : List ℚ) :
    hybridNorm l = l.map (hybridFun (listMin (l.filter (fun y => decide (y < 0))))
      (listMax (l.filter (fun y => decide (0 < y))))) := rfl

theorem hybridFun_sign_class (l : List ℚ) (x : ℚ) (hx : x ∈ l) :
    (hybridFun (listMin (l.filter (fun y => decide (y < 0))))
        (listMax (l.filter (fun y => decide (0 < y)))) x < 0 ↔ x < 0)
    ∧ (0 < hybridFun (listMin (l.filter (fun y => decide (y < 0))))
        (listMax (l.filter (fun y => decide (0 < y)))) x ↔ 0 < x) := by
  rcases lt_trichotomy x 0 with hneg | rfl | hpos
  · have hv := hybridFun_neg_mem (listMax (l.filter (fun y => decide (0 < y))))
      (negMin_le hx hneg) (negMin_neg hx hneg) hneg
    exact ⟨iff_of_true hv.2 hneg,
      iff_of_false (by linarith [hv.2]) (by linarith)⟩
  · rw [hybridFun_zero]
    exact ⟨Iff.rfl, Iff.rfl⟩
  · have hv := hybridFun_pos_mem (listMin (l.filter (fun y => decide (y < 0))))
      (le_posMax hx hpos) (posMax_pos hx hpos) hpos
    exact ⟨iff_of_false (by linarith [hv.1]) (by linarith),
      iff_of_true hv.1 hpos⟩

theorem negMin_image (l : List ℚ)
    (hne : l.filter (fun y => decide (y < 0)) ≠ []) :
    listMin ((hybridNorm l).filter (fun y => decide (y < 0))) = -1 := by
  set m := listMin (l.filter (fun y => decide (y < 0))) with hmdef
  set p := listMax (l.filter (fun y => decide (0 < y))) with hpdef
  have hm0 : m < 0 := by
    have hmem := listMin_mem hne
    rw [List.mem_filter] at hmem
    exact negMin_neg hmem.1 (by simpa using hmem.2)
  have hcomm : (hybridNorm l).filter (fun y => decide (y < 0))
      = (l.filter (fun y => decide (y < 0))).map (hybridFun m p) := by
    rw [hybridNorm_eq_map]
    exact filter_map_sign
      (fun x hx => decide_eq_decide.mpr (hybridFun_sign_class l x hx).1)
  rw [hcomm]
  have hagree : (l.filter (fun y => decide (y < 0))).map (hybridFun m p)
      = (l.filter (fun y => decide (y < 0))).map (fun x => (x - m) / (0 - m) - 1) := by
    apply map_congr_mem
    intro a ha
    rw [List.mem_filter] at ha
    rw [hybridFun, if_pos (by simpa using ha.2)]
  rw [hagree]
  have hmono : Monotone (fun x : ℚ => (x - m) / (0 - m) - 1) := by
    intro x y hxy
    have hd : (0:ℚ) < 0 - m := by linarith
    exact sub_le_sub_right
      ((div_le_div_iff_of_pos_right hd).mpr (sub_le_sub_right hxy m)) 1
  rw [listMin_map_mono hmono hne, ← hmdef, sub_self, zero_div]
  norm_num

theorem posMax_image (l : List ℚ)
    (hne : l.filter (fun y => decide (0 < y)) ≠ []) :
    listMax ((hybridNorm l).filter (fun y => decide (0 < y))) = 1 := by
  set m := listMin (l.filter (fun y => decide (y < 0))) with hmdef
  set p := listMax (l.filter (fun y => decide (0 < y))) with hpdef
  have hp0 : 0 < p := by
    have hmem := listMax_mem hne
    rw [List.mem_filter] at hmem
    exact posMax_pos hmem.1 (by simpa using hmem.2)
  have hcomm : (hybridNorm l).filter (fun y => decide (0 < y))
      = (l.filter (fun y => decide (0 < y))).map (hybridFun m p) := by
    rw [hybridNorm_eq_map]
    exact filter_map_sign
      (fun x hx => decide_eq_decide.mpr (hybridFun_sign_class l x hx).2)
  rw [hcomm]
  have hagree : (l.filter (fun y => decide (0 < y))).map (hybridFun m p)
      = (l.filter (fun y => decide (0 < y))).map (fun x => (x - 0) / (p - 0)) := by
    apply map_congr_mem
    intro a ha
    rw [List.mem_filter] at ha
    have hpos : 0 < a := by simpa using ha.2
    rw [hybridFun, if_neg (by linarith), if_pos hpos]
  rw [hagree]
  have hmono : Monotone (fun x : ℚ => (x - 0) / (p - 0)) := by
    intro x y hxy
    have hd : (0:ℚ) < p - 0 := by linarith
    exact (div_le_div_iff_of_pos_right hd).mpr (sub_le_sub_right hxy 0)
  rw [listMax_map_mono hmono hne, ← hpdef, sub_zero]
  exact div_self hp0.ne'

theorem hybridNorm_idem (l : List ℚ) : hybridNorm (hybridNorm l) = hybridNorm l := by
  rw [hybridNorm_eq_map (hybridNorm l)]
  apply map_eq_self_of_eq
  intro y hy
  rw [hybridNorm_eq_map] at hy
  obtain ⟨x, hxl, rfl⟩ := List.mem_map.mp hy
  set m := listMin (l.filter (fun z => decide (z < 0))) with hmdef
  set p := listMax (l.filter (fun z => decide (0 < z))) with hpdef
  rcases lt_trichotomy x 0 with hneg | rfl | hpos
  · have hv := hybridFun_neg_mem p (negMin_le hxl hneg) (negMin_neg hxl hneg) hneg
    rw [negMin_image l (neg_filter_ne_nil hxl hneg), hybridFun, if_pos hv.2]
    norm_num
  · rw [hybridFun_zero, hybridFun_zero]
  · have hv := hybridFun_pos_mem m (le_posMax hxl hpos) (posMax_pos hxl hpos) hpos
    rw [posMax_image l (pos_filter_ne_nil hxl hpos), hybridFun,
      if_neg (by linarith [hv.1]), if_pos hv.1]
    norm_num

/-! ## Claim C7 -/

/-- Claim C7: with the (hard-wired) global scope and no intervening data
change, applying the throttle normalizer twice yields the same throttle and
hybrid-throttle data as applying it once; after one application the throttle
minimum is 0 and the maximum is 1, and each normalized hybrid-throttle value
that is negative lies within `[-1, 0)` and each positive one within
`(0, 1]` (zeros stay 0), so the second application is the identity on the
data.  Requires a nondegenerate throttle range
(`listMin t < listMax t`; with an all-equal throttle column the Python code
divides by zero). -/
theorem normalize_throttle_idempotent (useHybrid : Bool) (t h : List ℚ)
    (ht : listMin t < listMax t) :
    normalizeThrottleGlobal useHybrid (normalizeThrottleGlobal useHybrid t h).1
        (normalizeThrottleGlobal useHybrid t h).2
      = normalizeThrottleGlobal useHybrid t h
    ∧ listMin (normalizeThrottleGlobal useHybrid t h).1 = 0
    ∧ listMax (normalizeThrottleGlobal useHybrid t h).1 = 1
    ∧ ∀ y ∈ (normalizeThrottleGlobal true t h).2,
        (y < 0 → -1 ≤ y) ∧ (0 < y → y ≤ 1) := by
  refine ⟨?_, (normalizeList_minmax t ht).1, (normalizeList_minmax t ht).2, ?_⟩
  · cases useHybrid with
    | false =>
      simp only [normalizeThrottleGlobal, Bool.false_eq_true, if_false]
      exact Prod.ext (normalizeList_idem t ht) rfl
    | true =>
      simp only [normalizeThrottleGlobal, if_true]
      exact Prod.ext (normalizeList_idem t ht) (hybridNorm_idem h)
  · intro y hy
    have hy' : y ∈ h.map (hybridFun (listMin (h.filter (fun z => decide (z < 0))))
        (listMax (h.filter (fun z => decide (0 < z))))) := by
      simpa [normalizeThrottleGlobal, hybridNorm_eq_map] using hy
    obtain ⟨x, hxh, rfl⟩ := List.mem_map.mp hy'
    rcases lt_trichotomy x 0 with hneg | rfl | hpos
    · have hv := hybridFun_neg_mem (listMax (h.filter (fun z => decide (0 < z))))
        (negMin_le hxh hneg) (negMin_neg hxh hneg) hneg
      exact ⟨fun _ => hv.1, fun hc => absurd hc (by linarith [hv.2])⟩
    · rw [hybridFun_zero]
      exact ⟨fun hc => absurd hc (lt_irrefl 0), fun hc => absurd hc (lt_irrefl 0)⟩
    · have hv := hybridFun_pos_mem (listMin (h.filter (fun z => decide (z < 0))))
        (le_posMax hxh hpos) (posMax_pos hxh hpos) hpos
      exact ⟨fun hc => absurd hc (by linarith [hv.1]), fun _ => hv.2⟩

/-- Witness for `normalize_throttle_idempotent` on a concrete deck with
throttle column `[3/5, 1]` and hybrid-throttle column `[-2, 0, 3]`. -/
theorem normalize_throttle_idempotent_witness :
    normalizeThrottleGlobal true
        (normalizeThrottleGlobal true [3/5, 1] [-2, 0, 3]).1
        (normalizeThrottleGlobal true [3/5, 1] [-2, 0, 3]).2
      = normalizeThrottleGlobal true [3/5, 1] [-2, 0, 3]
    ∧ listMin (normalizeThrottleGlobal true [3/5, 1] [-2, 0, 3]).1 = 0
    ∧ listMax (normalizeThrottleGlobal true [3/5, 1] [-2, 0, 3]).1 = 1
    ∧ ∀ y ∈ (normalizeThrottleGlobal true [3/5, 1] [-2, 0, 3]).2,
        (y < 0 → -1 ≤ y) ∧ (0 < y → y ≤ 1) :=
  normalize_throttle_idempotent true [3/5, 1] [-2, 0, 3]
    (by norm_num [listMin, listMax, qmin, qmax])
